import Mathlib

/-!
Verification of the in-process message bus of the Chopper Coffee demo
(`src/soa.js`, `class ServiceBus`, lines 10-34).

The bus state is a JS object with two fields:
  `this._subscribers` : an object mapping topic strings to arrays of handlers,
  `this._log`         : an array of log entries.
We model the subscriber object as an association list (so the JS distinction
between an absent key and a key bound to an empty array is preserved), the log
as a `List Entry`, and `Date.now()` as a clock carried in the state; the demo's
`delay(ms)` (src/soa.js line 158) advances that clock by `ms`.

A subscribed handler in the demo is an `async` function that receives the
payload, may `await bus.publish(...)` any number of times, and finally either
resolves or rejects.  We embed that capability interface as the syntactic type
`HProg` (a handler body is a function from the payload to an `HProg`).  The
dispatcher `publish` itself is translated from the source into a fuel-indexed
interpreter `run`: the fuel only bounds how many recursive calls a run may
make (the JS code has no such bound and can genuinely recurse forever on a
cyclic topic graph, see spec section 9); when the fuel runs out the outcome is
`Outcome.spin` ("still running").  Besides the final bus state and the
outcome, the interpreter returns a ghost trace of observable events (log
appends, handler invocations, handler settlement / failure), each tagged with
the nesting depth of the dispatch round that produced it, which is what the
ordering claims are stated against.
-/

/-- Topics are opaque strings (`event` in the source). -/
abbrev Topic := String

/-- Payloads are opaque to the bus; the bus never inspects them. -/
abbrev Payload := String

/-- A log entry, from src/soa.js line 22:
`const entry = { event, payload, timestamp: Date.now() };`. -/
structure Entry where
  event : Topic
  payload : Payload
  timestamp : Nat
deriving Repr, DecidableEq

/-- The keys of the log-entry object literal built by `publish`
(src/soa.js line 22).  The entry has exactly these three properties. -/
def entryKeys : List String := ["event", "payload", "timestamp"]

/-- What a subscribed handler may do with the bus, as a syntax tree:
settle successfully (`ret`), reject with an error (`err`), or
`await bus.publish(t, p)` and then continue (`pub`). -/
inductive HProg where
  | ret : HProg
  | err : String → HProg
  | pub : Topic → Payload → HProg → HProg

/-- A subscribed handler: `body` is the handler function (payload to
behavior); `tag` is a ghost identifier used only by the trace, so that
distinct registrations of distinct functions can be told apart. -/
structure Handler where
  tag : Nat
  body : Payload → HProg

/-- The state of one `ServiceBus` instance (src/soa.js lines 11-14),
plus the current value of `Date.now()`. -/
structure ServiceBus where
  subscribers : List (Topic × List Handler)
  log : List Entry
  clock : Nat

/-- Observable events of a run, tagged with the dispatch-round depth:
handlers of a top-level publish are invoked at depth `d`, and the publishes
they issue dispatch their own handlers at depth `d + 1`. -/
inductive Ev where
  | append : Entry → Ev
  | invoke : Nat → Nat → Payload → Ev
  | settled : Nat → Nat → Ev
  | failed : Nat → Nat → String → Ev
deriving Repr, DecidableEq

/-- How a run ends: the promise resolved (`ok`), rejected (`fail`), or the
fuel ran out before it settled (`spin`). -/
inductive Outcome where
  | ok : Outcome
  | fail : String → Outcome
  | spin : Outcome
deriving Repr, DecidableEq

/-- Result of a run: final bus state, ghost event trace, outcome. -/
structure Res where
  bus : ServiceBus
  tr : List Ev
  out : Outcome

/-- Key lookup in the `_subscribers` object. -/
def lookupTopic : List (Topic × List Handler) → Topic → Option (List Handler)
  | [], _ => none
  | (t, hs) :: rest, u => if t = u then some hs else lookupTopic rest u

/-- Key update (or insertion) in the `_subscribers` object. -/
def setTopic : List (Topic × List Handler) → Topic → List Handler → List (Topic × List Handler)
  | [], u, v => [(u, v)]
  | (t, hs) :: rest, u, v => if t = u then (u, v) :: rest else (t, hs) :: setTopic rest u v

/-- `subscribe(event, handler)` (src/soa.js lines 16-19):
`if (!this._subscribers[event]) this._subscribers[event] = [];`
`this._subscribers[event].push(handler);`
The method body has no `return` statement, so the call evaluates to
`undefined`; we model the returned value as an `Option Unit` that is always
`none` (a subscription handle, were one returned, would be a `some`). -/
def ServiceBus.subscribe (b : ServiceBus) (event : Topic) (handler : Handler) :
    ServiceBus × Option Unit :=
  let cur := (lookupTopic b.subscribers event).getD []
  ({ b with subscribers := setTopic b.subscribers event (cur ++ [handler]) }, none)

/-- `const handlers = this._subscribers[event] || [];` (src/soa.js line 26).
An absent key yields `undefined`, hence `[]`; a present array (even an empty
one, which is truthy in JS) is used as is — both cases are `getD []`. -/
def ServiceBus.handlersFor (b : ServiceBus) (event : Topic) : List Handler :=
  (lookupTopic b.subscribers event).getD []

/-- `getLog()` (src/soa.js line 33). -/
def ServiceBus.getLog (b : ServiceBus) : List Entry := b.log

/-- `delay(ms)` (src/soa.js line 158) models elapsed time: it advances the
`Date.now()` clock by `ms`. -/
def ServiceBus.delay (b : ServiceBus) (ms : Nat) : ServiceBus :=
  { b with clock := b.clock + ms }

/-- `this._log.push(entry)` (src/soa.js line 23). -/
def ServiceBus.withEntry (b : ServiceBus) (e : Entry) : ServiceBus :=
  { b with log := b.log ++ [e] }

/-- The three mutually recursive activities of the dispatcher, folded into
one type so the interpreter can recurse on fuel alone:
`pub d b t p` is a call `bus.publish(t, p)` whose handlers run at depth `d`;
`round d b p hs` is the `for (const handler of handlers)` loop over the
remaining handlers `hs`; `prog d b k` is a running handler body `k` whose
own publishes dispatch at depth `d`. -/
inductive Job where
  | pub : Nat → ServiceBus → Topic → Payload → Job
  | round : Nat → ServiceBus → Payload → List Handler → Job
  | prog : Nat → ServiceBus → HProg → Job

/-- The bus state a job starts from. -/
def Job.bus : Job → ServiceBus
  | .pub _ b _ _ => b
  | .round _ b _ _ => b
  | .prog _ b _ => b

/-- The dispatch-round depth of a job. -/
def Job.depth : Job → Nat
  | .pub d _ _ _ => d
  | .round d _ _ _ => d
  | .prog d _ _ => d

/-- The interpreter for `async publish(event, payload)` (src/soa.js lines
21-31) and the handler programs it awaits.

* `pub`: build the entry `{ event, payload, timestamp: Date.now() }`, push it
  onto `this._log` (`notifyBusLog(entry)` on line 24 only touches the DOM and
  is outside the bus state), look up `this._subscribers[event] || []` (pushing
  onto the log does not change `_subscribers`, so the lookup is performed on
  `b` directly), then run the handler loop.
* `round`: for each handler in order, `await delay(400)`, then
  `await handler(payload)`; a rejection aborts the loop and rejects the
  outer publish with the same error.
* `prog`: a handler body either settles, rejects, or awaits a nested
  `bus.publish` and continues with its result; a rejected nested publish
  rejects the handler. -/
def run : Nat → Job → Res
  | 0, j => ⟨j.bus, [], .spin⟩
  | n + 1, .pub d b event payload =>
      let entry : Entry := ⟨event, payload, b.clock⟩
      let r := run n (.round d (b.withEntry entry) payload (b.handlersFor event))
      ⟨r.bus, .append entry :: r.tr, r.out⟩
  | _ + 1, .round _ b _ [] => ⟨b, [], .ok⟩
  | n + 1, .round d b p (h :: rest) =>
      let r := run n (.prog (d + 1) (b.delay 400) (h.body p))
      match r.out with
      | .ok =>
          let r2 := run n (.round d r.bus p rest)
          ⟨r2.bus, .invoke d h.tag p :: (r.tr ++ .settled d h.tag :: r2.tr), r2.out⟩
      | .fail e => ⟨r.bus, .invoke d h.tag p :: (r.tr ++ [.failed d h.tag e]), .fail e⟩
      | .spin => ⟨r.bus, .invoke d h.tag p :: r.tr, .spin⟩
  | _ + 1, .prog _ b .ret => ⟨b, [], .ok⟩
  | _ + 1, .prog _ b (.err e) => ⟨b, [], .fail e⟩
  | n + 1, .prog d b (.pub t p k) =>
      let r := run n (.pub d b t p)
      match r.out with
      | .ok =>
          let r2 := run n (.prog d r.bus k)
          ⟨r2.bus, r.tr ++ r2.tr, r2.out⟩
      | _ => r

/-- `bus.publish(event, payload)` with a fuel bound, dispatching at depth
`d` (`d = 0` for a top-level call by an external actor). -/
def ServiceBus.publish (fuel d : Nat) (b : ServiceBus) (event : Topic)
    (payload : Payload) : Res :=
  run fuel (.pub d b event payload)

/-- The entries appended during a trace, in trace order. -/
def appendsOf : List Ev → List Entry :=
  List.filterMap fun ev => match ev with | .append e => some e | _ => none

/-- The handler invocations a trace records at round depth `d`. -/
def invokesAt (d : Nat) : List Ev → List Ev :=
  List.filter fun ev => match ev with | .invoke dd _ _ => dd == d | _ => false

/-- The shape of a successful dispatch round's trace at depth `d`: one
contiguous segment per registered handler, in registration order, each opened
by invoking that handler with the round's payload, followed by the handler's
own cascade `seg` (which contains no invocation at the round's depth), and
closed by that handler's settlement — all before the next handler starts. -/
def RoundShape (d : Nat) (p : Payload) : List Handler → List Ev → Prop
  | [], tr => tr = []
  | h :: rest, tr =>
      ∃ seg tl, tr = .invoke d h.tag p :: (seg ++ .settled d h.tag :: tl) ∧
        invokesAt d seg = [] ∧ RoundShape d p rest tl

/-- Trace of a round of handlers that all immediately settle. -/
def retRoundTr (d : Nat) (p : Payload) : List Handler → List Ev
  | [] => []
  | h :: rest => .invoke d h.tag p :: .settled d h.tag :: retRoundTr d p rest


/-- A concrete bus for tests: topic "t" carries a failing first handler and a
second handler that would settle immediately. -/
def failDemoBus : ServiceBus :=
  ⟨[("t", [⟨1, fun _ => .err "boom"⟩, ⟨2, fun _ => .ret⟩])], [], 0⟩

/-- A concrete bus for tests: topic "A" carries a handler that publishes to
"B" and then a sibling handler; topic "B" carries one non-publishing
handler. -/
def cascadeDemoBus : ServiceBus :=
  ⟨[("A", [⟨1, fun _ => .pub "B" "q" .ret⟩, ⟨2, fun _ => .ret⟩]),
    ("B", [⟨3, fun _ => .ret⟩])], [], 0⟩

/-- A concrete bus for tests: the same handler (tag 7) registered twice for
topic "t". -/
def dupDemoBus : ServiceBus :=
  ⟨[("t", [⟨7, fun _ => .ret⟩, ⟨7, fun _ => .ret⟩])], [], 0⟩


/-! ### Trace bookkeeping lemmas -/

@[simp] theorem appendsOf_nil : appendsOf [] = [] := rfl

@[simp] theorem appendsOf_cons_append (e : Entry) (tr : List Ev) :
    appendsOf (.append e :: tr) = e :: appendsOf tr := rfl

@[simp] theorem appendsOf_cons_invoke (d g : Nat) (p : Payload) (tr : List Ev) :
    appendsOf (.invoke d g p :: tr) = appendsOf tr := rfl

@[simp] theorem appendsOf_cons_settled (d g : Nat) (tr : List Ev) :
    appendsOf (.settled d g :: tr) = appendsOf tr := rfl

@[simp] theorem appendsOf_cons_failed (d g : Nat) (e : String) (tr : List Ev) :
    appendsOf (.failed d g e :: tr) = appendsOf tr := rfl

@[simp] theorem appendsOf_append (a b : List Ev) :
    appendsOf (a ++ b) = appendsOf a ++ appendsOf b :=
  List.filterMap_append ..

@[simp] theorem invokesAt_nil (d : Nat) : invokesAt d [] = [] := rfl

@[simp] theorem invokesAt_cons_invoke (d dd g : Nat) (p : Payload) (tr : List Ev) :
    invokesAt d (.invoke dd g p :: tr) =
      if dd = d then .invoke dd g p :: invokesAt d tr else invokesAt d tr := by
  by_cases h : dd = d
  · subst h; simp [invokesAt, List.filter]
  · have hb : (dd == d) = false := by simp [h]
    simp [invokesAt, List.filter, hb, h]

@[simp] theorem invokesAt_cons_append (d : Nat) (e : Entry) (tr : List Ev) :
    invokesAt d (.append e :: tr) = invokesAt d tr := rfl

@[simp] theorem invokesAt_cons_settled (d dd g : Nat) (tr : List Ev) :
    invokesAt d (.settled dd g :: tr) = invokesAt d tr := rfl

@[simp] theorem invokesAt_cons_failed (d dd g : Nat) (e : String) (tr : List Ev) :
    invokesAt d (.failed dd g e :: tr) = invokesAt d tr := rfl

@[simp] theorem invokesAt_append (d : Nat) (a b : List Ev) :
    invokesAt d (a ++ b) = invokesAt d a ++ invokesAt d b :=
  List.filter_append ..

theorem invokesAt_eq_nil (d : Nat) (tr : List Ev)
    (h : ∀ dd g q, Ev.invoke dd g q ∈ tr → d < dd) : invokesAt d tr = [] := by
  induction tr with
  | nil => rfl
  | cons ev rest ih =>
      have hrest : invokesAt d rest = [] :=
        ih fun dd g q hm => h dd g q (List.mem_cons_of_mem _ hm)
      cases ev with
      | invoke dd g q =>
          have : d < dd := h dd g q (List.mem_cons_self _ _)
          simp [hrest, Nat.ne_of_gt this]
      | append e => simpa using hrest
      | settled dd g => simpa using hrest
      | failed dd g e => simpa using hrest

/-! ### Structural lemmas about the interpreter -/

/-- Running any job never touches the subscription registry. -/
theorem run_subscribers (n : Nat) :
    ∀ j : Job, (run n j).bus.subscribers = j.bus.subscribers := by
  induction n with
  | zero => intro j; rfl
  | succ n ih =>
    intro j
    cases j with
    | pub d b t p =>
        simp only [run, Job.bus]
        rw [ih]; rfl
    | round d b p hs =>
        cases hs with
        | nil => rfl
        | cons h rest =>
            simp only [run, Job.bus]
            rcases ho : (run n (.prog (d + 1) (b.delay 400) (h.body p))).out with _ | e | _
            all_goals simp only [ho]
            · rw [ih]; simp only [Job.bus]; rw [ih]; rfl
            · rw [ih]; rfl
            · rw [ih]; rfl
    | prog d b k =>
        cases k with
        | ret => rfl
        | err e => rfl
        | pub t p cont =>
            simp only [run, Job.bus]
            rcases ho : (run n (.pub d b t p)).out with _ | e | _
            all_goals simp only [ho]
            · rw [ih]; simp only [Job.bus]; rw [ih]; rfl
            · rw [ih]; rfl
            · rw [ih]; rfl

/-- The final log of any run is the initial log with exactly the appends of
the trace, in trace order, at the end. -/
theorem run_log (n : Nat) :
    ∀ j : Job, (run n j).bus.log = j.bus.log ++ appendsOf (run n j).tr := by
  induction n with
  | zero => intro j; simp [run]
  | succ n ih =>
    intro j
    cases j with
    | pub d b t p =>
        simp only [run, Job.bus]
        rw [ih]
        simp [Job.bus, ServiceBus.withEntry]
    | round d b p hs =>
        cases hs with
        | nil => simp [run, Job.bus]
        | cons h rest =>
            simp only [run, Job.bus]
            rcases ho : (run n (.prog (d + 1) (b.delay 400) (h.body p))).out with _ | e | _
            all_goals simp only [ho]
            · rw [ih]
              simp only [Job.bus, appendsOf_cons_invoke, appendsOf_append,
                appendsOf_cons_settled]
              rw [ih]
              simp [Job.bus, ServiceBus.delay, List.append_assoc]
            · rw [ih]; simp [Job.bus, ServiceBus.delay]
            · rw [ih]; simp [Job.bus, ServiceBus.delay]
    | prog d b k =>
        cases k with
        | ret => simp [run, Job.bus]
        | err e => simp [run, Job.bus]
        | pub t p cont =>
            simp only [run, Job.bus]
            rcases ho : (run n (.pub d b t p)).out with _ | e | _
            all_goals simp only [ho]
            · rw [ih]
              simp only [appendsOf_append, Job.bus]
              rw [ih]
              simp [Job.bus, List.append_assoc]
            · rw [ih]; rfl
            · rw [ih]; rfl

/-- Every handler invocation recorded by a run happens at the job's own round
depth or deeper: nested cascades never invoke at an outer depth. -/
theorem run_depth (n : Nat) :
    ∀ (j : Job) (dd g : Nat) (q : Payload),
      Ev.invoke dd g q ∈ (run n j).tr → j.depth ≤ dd := by
  induction n with
  | zero => intro j dd g q hm; simp [run] at hm
  | succ n ih =>
    intro j dd g q hm
    cases j with
    | pub d b t p =>
        show d ≤ dd
        simp only [run, List.mem_cons] at hm
        rcases hm with hm | hm
        · simp at hm
        · exact ih _ dd g q hm
    | round d b p hs =>
        show d ≤ dd
        cases hs with
        | nil => simp [run] at hm
        | cons h rest =>
            rcases ho : (run n (.prog (d + 1) (b.delay 400) (h.body p))).out with _ | e | _
            all_goals simp only [run, ho, List.mem_cons, List.mem_append] at hm
            · rcases hm with hm | (hm | (hm | hm))
              · simp at hm; omega
              · have : d + 1 ≤ dd := ih _ dd g q hm
                omega
              · simp at hm
              · exact ih _ dd g q hm
            · rcases hm with hm | (hm | hm)
              · simp at hm; omega
              · have : d + 1 ≤ dd := ih _ dd g q hm
                omega
              · simp at hm
            · rcases hm with hm | hm
              · simp at hm; omega
              · have : d + 1 ≤ dd := ih _ dd g q hm
                omega
    | prog d b k =>
        show d ≤ dd
        cases k with
        | ret => simp [run] at hm
        | err e => simp [run] at hm
        | pub t p cont =>
            rcases ho : (run n (.pub d b t p)).out with _ | e | _
            all_goals simp only [run, ho, List.mem_append] at hm
            · rcases hm with hm | hm
              · exact ih _ dd g q hm
              · exact ih _ dd g q hm
            · exact ih _ dd g q hm
            · exact ih _ dd g q hm

/-- A recorded handler failure is never swallowed: if any run's trace records
`failed _ _ e`, that run's own outcome is `fail e` (the bus has no
catch anywhere on the dispatch path). -/
theorem run_failed_mem (n : Nat) :
    ∀ (j : Job) (dd g : Nat) (e : String),
      Ev.failed dd g e ∈ (run n j).tr → (run n j).out = .fail e := by
  induction n with
  | zero => intro j dd g e hm; simp [run] at hm
  | succ n ih =>
    intro j dd g e hm
    cases j with
    | pub d b t p =>
        simp only [run, List.mem_cons] at hm ⊢
        rcases hm with hm | hm
        · simp at hm
        · exact ih _ dd g e hm
    | round d b p hs =>
        cases hs with
        | nil => simp [run] at hm
        | cons h rest =>
            rcases ho : (run n (.prog (d + 1) (b.delay 400) (h.body p))).out with _ | e0 | _
            all_goals simp only [run, ho, List.mem_cons, List.mem_append] at hm ⊢
            · rcases hm with hm | (hm | (hm | hm))
              · simp at hm
              · have := ih _ dd g e hm
                rw [ho] at this; exact absurd this (by simp)
              · simp at hm
              · exact ih _ dd g e hm
            · rcases hm with hm | (hm | hm)
              · simp at hm
              · have := ih _ dd g e hm
                rw [ho] at this
                simpa using this
              · simp at hm
                simp [hm]
            · rcases hm with hm | hm
              · simp at hm
              · have := ih _ dd g e hm
                rw [ho] at this; exact absurd this (by simp)
    | prog d b k =>
        cases k with
        | ret => simp [run] at hm
        | err e0 => simp [run] at hm
        | pub t p cont =>
            rcases ho : (run n (.pub d b t p)).out with _ | e0 | _
            all_goals simp only [run, ho, List.mem_append] at hm ⊢
            · rcases hm with hm | hm
              · have := ih _ dd g e hm
                rw [ho] at this; exact absurd this (by simp)
              · exact ih _ dd g e hm
            · exact ho.symm.trans (ih _ dd g e hm)
            · have := ih _ dd g e hm
              rw [ho] at this; exact absurd this (by simp)

/-- Conversely, a failed handler loop always records its failure: if a
dispatch round rejects with `e`, its trace holds a `failed _ _ e` event. -/
theorem run_round_fail_mem (n : Nat) :
    ∀ (d : Nat) (b : ServiceBus) (p : Payload) (hs : List Handler) (e : String),
      (run n (.round d b p hs)).out = .fail e →
      ∃ dd g, Ev.failed dd g e ∈ (run n (.round d b p hs)).tr := by
  induction n with
  | zero => intro d b p hs e ho; simp [run] at ho
  | succ n ih =>
    intro d b p hs e hfail
    cases hs with
    | nil => simp [run] at hfail
    | cons h rest =>
        rcases ho : (run n (.prog (d + 1) (b.delay 400) (h.body p))).out with _ | e0 | _
        all_goals simp only [run, ho] at hfail ⊢
        · obtain ⟨dd, g, hm⟩ := ih d _ p rest e hfail
          exact ⟨dd, g, by simp [List.mem_append, hm]⟩
        · cases hfail
          exact ⟨d, h.tag, by simp⟩
        · simp at hfail

/-- `publish` version of `run_round_fail_mem`: a rejected publish records the
failing handler in its trace. -/
theorem run_pub_fail_mem (n d : Nat) (b : ServiceBus) (t : Topic) (p : Payload)
    (e : String) (hfail : (run n (.pub d b t p)).out = .fail e) :
    ∃ dd g, Ev.failed dd g e ∈ (run n (.pub d b t p)).tr := by
  cases n with
  | zero => simp [run] at hfail
  | succ n =>
      simp only [run] at hfail ⊢
      obtain ⟨dd, g, hm⟩ := run_round_fail_mem n _ _ _ _ e hfail
      exact ⟨dd, g, by simp [hm]⟩

/-- In a successful run every invoked handler settled: the completion signal
resolves only after the entire cascade has settled. -/
theorem run_ok_settled (n : Nat) :
    ∀ j : Job, (run n j).out = .ok →
      ∀ (dd g : Nat) (q : Payload),
        Ev.invoke dd g q ∈ (run n j).tr → Ev.settled dd g ∈ (run n j).tr := by
  induction n with
  | zero => intro j ho; simp [run] at ho
  | succ n ih =>
    intro j hok dd g q hm
    cases j with
    | pub d b t p =>
        simp only [run, List.mem_cons] at hok hm ⊢
        rcases hm with hm | hm
        · simp at hm
        · exact Or.inr (ih _ hok dd g q hm)
    | round d b p hs =>
        cases hs with
        | nil => simp [run] at hm
        | cons h rest =>
            rcases ho : (run n (.prog (d + 1) (b.delay 400) (h.body p))).out with _ | e0 | _
            all_goals simp only [run, ho, List.mem_cons, List.mem_append] at hok hm ⊢
            · rcases hm with hm | (hm | (hm | hm))
              · simp at hm
                exact Or.inr (Or.inr (Or.inl (by simp [hm.1, hm.2.1])))
              · exact Or.inr (Or.inl (ih _ ho dd g q hm))
              · simp at hm
              · exact Or.inr (Or.inr (Or.inr (ih _ hok dd g q hm)))
            · simp at hok
            · simp at hok
    | prog d b k =>
        cases k with
        | ret => simp [run] at hm
        | err e0 => simp [run] at hok
        | pub t p cont =>
            rcases ho : (run n (.pub d b t p)).out with _ | e0 | _
            all_goals simp only [run, ho, List.mem_append] at hok hm ⊢
            · rcases hm with hm | hm
              · exact Or.inl (ih _ ho dd g q hm)
              · exact Or.inr (ih _ hok dd g q hm)
            · simp at hok
            · simp at hok

/-- A successful handler loop produces a trace of exactly the round shape:
handlers run strictly sequentially in registration order, each receiving the
round's payload, and each one's full cascade settles before the next one is
invoked. -/
theorem run_round_shape (n : Nat) :
    ∀ (d : Nat) (b : ServiceBus) (p : Payload) (hs : List Handler),
      (run n (.round d b p hs)).out = .ok →
      RoundShape d p hs (run n (.round d b p hs)).tr := by
  induction n with
  | zero => intro d b p hs ho; simp [run] at ho
  | succ n ih =>
    intro d b p hs hok
    cases hs with
    | nil => simp [run, RoundShape]
    | cons h rest =>
        rcases ho : (run n (.prog (d + 1) (b.delay 400) (h.body p))).out with _ | e0 | _
        all_goals simp only [run, ho] at hok ⊢
        · refine ⟨(run n (.prog (d + 1) (b.delay 400) (h.body p))).tr,
            (run n (.round d _ p rest)).tr, rfl, ?_, ?_⟩
          · exact invokesAt_eq_nil d _ fun dd g q hm => run_depth n _ dd g q hm
          · exact ih d _ p rest hok
        · simp at hok
        · simp at hok

/-- In a successful dispatch round at depth `d`, the trace's invocations at
depth `d` are exactly one per registration, in registration order, each with
the round's payload; nested cascades only add deeper invocations. -/
theorem run_round_invokes (n : Nat) :
    ∀ (d : Nat) (b : ServiceBus) (p : Payload) (hs : List Handler),
      (run n (.round d b p hs)).out = .ok →
      invokesAt d (run n (.round d b p hs)).tr =
        hs.map fun h => Ev.invoke d h.tag p := by
  induction n with
  | zero => intro d b p hs ho; simp [run] at ho
  | succ n ih =>
    intro d b p hs hok
    cases hs with
    | nil => simp [run]
    | cons h rest =>
        rcases ho : (run n (.prog (d + 1) (b.delay 400) (h.body p))).out with _ | e0 | _
        all_goals simp only [run, ho] at hok ⊢
        · have hseg : invokesAt d (run n (.prog (d + 1) (b.delay 400) (h.body p))).tr = [] :=
            invokesAt_eq_nil d _ fun dd g q hm => run_depth n _ dd g q hm
          simp [hseg, ih d _ p rest hok]
        · simp at hok
        · simp at hok

/-- A round over handlers that all just settle (publish nothing) succeeds,
leaves the log untouched, advances the clock by one 400ms delay per handler,
and records exactly one invocation and one settlement per handler. -/
theorem run_round_rets :
    ∀ (hs : List Handler) (n d : Nat) (b : ServiceBus) (p : Payload),
      (∀ h ∈ hs, h.body p = .ret) → hs.length + 1 ≤ n →
      run n (.round d b p hs) =
        ⟨{ b with clock := b.clock + 400 * hs.length }, retRoundTr d p hs, .ok⟩ := by
  intro hs
  induction hs with
  | nil =>
      intro n d b p _ hn
      obtain ⟨m, rfl⟩ : ∃ m, n = m + 1 := ⟨n - 1, by omega⟩
      simp only [run, retRoundTr]
      congr 1
  | cons h rest ih =>
      intro n d b p hbody hn
      obtain ⟨m, rfl⟩ : ∃ m, n = m + 1 := ⟨n - 1, by omega⟩
      obtain ⟨m', rfl⟩ : ∃ m', m = m' + 1 := ⟨m - 1, by simp at hn; omega⟩
      have hb : h.body p = .ret := hbody h (by simp)
      have hrest : ∀ h' ∈ rest, h'.body p = .ret :=
        fun h' hm => hbody h' (by simp [hm])
      have hlen : rest.length + 1 ≤ m' + 1 := by simp at hn; omega
      simp only [run, hb]
      rw [ih (m' + 1) d (b.delay 400) p hrest hlen]
      simp only [retRoundTr]
      congr 2
      simp [ServiceBus.delay]
      ring

/-! ### Small facts about the bus state operations -/

@[simp] theorem subscribers_withEntry (b : ServiceBus) (e : Entry) :
    (b.withEntry e).subscribers = b.subscribers := rfl

@[simp] theorem subscribers_delay (b : ServiceBus) (ms : Nat) :
    (b.delay ms).subscribers = b.subscribers := rfl

@[simp] theorem log_withEntry (b : ServiceBus) (e : Entry) :
    (b.withEntry e).log = b.log ++ [e] := rfl

@[simp] theorem log_delay (b : ServiceBus) (ms : Nat) :
    (b.delay ms).log = b.log := rfl

@[simp] theorem clock_withEntry (b : ServiceBus) (e : Entry) :
    (b.withEntry e).clock = b.clock := rfl

@[simp] theorem clock_delay (b : ServiceBus) (ms : Nat) :
    (b.delay ms).clock = b.clock + ms := rfl

@[simp] theorem handlersFor_withEntry (b : ServiceBus) (e : Entry) (t : Topic) :
    (b.withEntry e).handlersFor t = b.handlersFor t := rfl

@[simp] theorem handlersFor_delay (b : ServiceBus) (ms : Nat) (t : Topic) :
    (b.delay ms).handlersFor t = b.handlersFor t := rfl

@[simp] theorem appendsOf_retRoundTr (d : Nat) (p : Payload) (hs : List Handler) :
    appendsOf (retRoundTr d p hs) = [] := by
  induction hs with
  | nil => rfl
  | cons h rest ih => simp [retRoundTr, ih]

theorem lookupTopic_setTopic_self (m : List (Topic × List Handler)) (t : Topic)
    (v : List Handler) : lookupTopic (setTopic m t v) t = some v := by
  induction m with
  | nil => simp [setTopic, lookupTopic]
  | cons kv rest ih =>
      obtain ⟨u, hs⟩ := kv
      by_cases h : u = t
      · subst h; simp [setTopic, lookupTopic]
      · simp [setTopic, lookupTopic, h, ih]

theorem lookupTopic_setTopic_other (m : List (Topic × List Handler)) (t u : Topic)
    (v : List Handler) (h : t ≠ u) : lookupTopic (setTopic m t v) u = lookupTopic m u := by
  induction m with
  | nil => simp [setTopic, lookupTopic, h]
  | cons kv rest ih =>
      obtain ⟨w, hs⟩ := kv
      by_cases hw : w = t
      · subst hw; simp [setTopic, lookupTopic, h]
      · simp [setTopic, lookupTopic, hw, ih]

/-- After `subscribe(t, h)` the registry holds, under `t`, the previous
handler list (empty if `t` was unknown) with `h` appended at the end. -/
theorem lookupTopic_subscribe (b : ServiceBus) (t : Topic) (h : Handler) :
    lookupTopic ((ServiceBus.subscribe b t h).1).subscribers t =
      some (b.handlersFor t ++ [h]) := by
  simp [ServiceBus.subscribe, ServiceBus.handlersFor, lookupTopic_setTopic_self]

theorem handlersFor_subscribe (b : ServiceBus) (t : Topic) (h : Handler) :
    ((ServiceBus.subscribe b t h).1).handlersFor t = b.handlersFor t ++ [h] := by
  simp [ServiceBus.handlersFor, lookupTopic_subscribe,
    ServiceBus.subscribe, lookupTopic_setTopic_self]

/-! ### The claims -/

/-- C2 (counterexample): the log entry object built by `publish`
(src/soa.js line 22) has exactly the keys `event`, `payload`, `timestamp` —
there is no `sequence` key — and, concretely, publishing "t"/"p" on a fresh
bus produces a log whose one entry consists of just those three fields.  So
no log entry "carries a sequence field that is a monotonically increasing
integer counter". -/
theorem entry_has_no_sequence_field :
    ¬ ("sequence" ∈ entryKeys) ∧
    ((ServiceBus.publish 2 0 ⟨[], [], 0⟩ "t" "p").bus).getLog = [⟨"t", "p", 0⟩] :=
  ⟨by decide, rfl⟩

/-- C2 (amended): log entries carry no sequence counter; what plays the role
of the definitive total order of dispatch activity is the log's append order
itself: every `publish` leaves the prior log untouched as an initial segment
and appends its cascade's entries at the end, in exactly dispatch order (the
order the appends occur in the trace), so an entry's log index is strictly
increasing in dispatch order with no gaps and no repeats. -/
theorem publish_log_append_dispatch_order (fuel d : Nat) (b : ServiceBus)
    (t : Topic) (p : Payload) :
    ((ServiceBus.publish fuel d b t p).bus).getLog =
      b.getLog ++ appendsOf (ServiceBus.publish fuel d b t p).tr :=
  run_log fuel (.pub d b t p)

/-- C3: for every publish, the envelope is appended to the log before any
handler runs: the very first event of the publish's trace is the append of
its entry (so it precedes every invocation of the cascade), and that entry is
in the final log. -/
theorem publish_appends_before_dispatch (fuel d : Nat) (b : ServiceBus)
    (t : Topic) (p : Payload) :
    ∃ rest, (ServiceBus.publish (fuel + 1) d b t p).tr =
        .append ⟨t, p, b.clock⟩ :: rest ∧
      (⟨t, p, b.clock⟩ : Entry) ∈ ((ServiceBus.publish (fuel + 1) d b t p).bus).getLog := by
  refine ⟨(run fuel (.round d (b.withEntry ⟨t, p, b.clock⟩) p (b.handlersFor t))).tr,
    rfl, ?_⟩
  have hlog := run_log fuel (.round d (b.withEntry ⟨t, p, b.clock⟩) p (b.handlersFor t))
  show (⟨t, p, b.clock⟩ : Entry) ∈
    (run fuel (.round d (b.withEntry ⟨t, p, b.clock⟩) p (b.handlersFor t))).bus.log
  rw [hlog]
  simp [Job.bus]

/-- C5: a publish call fails with `e` exactly when a handler somewhere in its
cascade failed with `e` (the trace records that handler's failure), and when
it resolves successfully, every handler that was invoked anywhere in the
cascade had settled first. -/
theorem publish_fails_iff_handler_fails (fuel d : Nat) (b : ServiceBus)
    (t : Topic) (p : Payload) :
    (∀ e, (ServiceBus.publish fuel d b t p).out = .fail e ↔
        ∃ dd g, Ev.failed dd g e ∈ (ServiceBus.publish fuel d b t p).tr)
    ∧ ((ServiceBus.publish fuel d b t p).out = .ok →
        ∀ dd g q, Ev.invoke dd g q ∈ (ServiceBus.publish fuel d b t p).tr →
          Ev.settled dd g ∈ (ServiceBus.publish fuel d b t p).tr) := by
  refine ⟨fun e => ⟨fun h => run_pub_fail_mem fuel d b t p e h, ?_⟩,
    fun hok dd g q hm => run_ok_settled fuel _ hok dd g q hm⟩
  rintro ⟨dd, g, hm⟩
  exact run_failed_mem fuel _ dd g e hm

/-- C5 (witness): on a concrete bus whose first handler for "t" rejects with
"boom", the publish call's outcome is that failure. -/
theorem publish_fails_iff_handler_fails_witness :
    (ServiceBus.publish 5 0 failDemoBus "t" "p").out = .fail "boom" :=
  ((publish_fails_iff_handler_fails 5 0 failDemoBus "t" "p").1 "boom").mpr
    ⟨0, 1, by decide⟩

/-- C6: publishing to a topic with zero registered subscribers appends
exactly one log entry, invokes no handler (the trace is just the append) and
settles successfully. -/
theorem publish_no_subscribers (fuel d : Nat) (b : ServiceBus) (t : Topic)
    (p : Payload) (h : b.handlersFor t = []) :
    ServiceBus.publish (fuel + 1 + 1) d b t p =
      ⟨b.withEntry ⟨t, p, b.clock⟩, [.append ⟨t, p, b.clock⟩], .ok⟩ := by
  show run (fuel + 1 + 1) (.pub d b t p) = _
  simp only [run, h]

/-- C6 (witness): on the empty bus, a publish appends its single entry,
records no invocation, and resolves. -/
theorem publish_no_subscribers_witness :
    ServiceBus.publish 2 0 ⟨[], [], 0⟩ "unknown.topic" "p" =
      ⟨ServiceBus.withEntry ⟨[], [], 0⟩ ⟨"unknown.topic", "p", 0⟩,
        [.append ⟨"unknown.topic", "p", 0⟩], .ok⟩ :=
  publish_no_subscribers 0 0 ⟨[], [], 0⟩ "unknown.topic" "p" rfl

/-- C7: the log is append-only. Every publish (whatever its outcome —
including handler failures and fuel exhaustion) leaves the prior log as an
initial segment and only ever adds entries after it, and subscribe never
touches the log at all. -/
theorem log_append_only :
    (∀ (fuel d : Nat) (b : ServiceBus) (t : Topic) (p : Payload),
        ∃ tail, ((ServiceBus.publish fuel d b t p).bus).getLog = b.getLog ++ tail)
    ∧ ∀ (b : ServiceBus) (t : Topic) (h : Handler),
        ((ServiceBus.subscribe b t h).1).getLog = b.getLog := by
  refine ⟨fun fuel d b t p => ⟨appendsOf (run fuel (.pub d b t p)).tr, ?_⟩,
    fun _ _ _ => rfl⟩
  exact run_log fuel (.pub d b t p)

/-- C8 (counterexample): the claim says `subscribe` returns a subscription
handle.  The method body (src/soa.js lines 16-19) has no `return` statement,
so a concrete call returns `undefined` (`none`) — no handle is returned. -/
theorem subscribe_returns_no_handle :
    (ServiceBus.subscribe ⟨[], [], 0⟩ "order.placed" ⟨0, fun _ => .ret⟩).2 = none := rfl

/-- C8 (amended): `subscribe(topic, handler)` registers the handler (appending
it to the topic's list) but returns `undefined` — no subscription handle, and
the bus offers no removal mechanism (its only operations are `subscribe`,
`publish` and `getLog`). -/
theorem subscribe_returns_undefined :
    ∀ (b : ServiceBus) (t : Topic) (h : Handler),
      (ServiceBus.subscribe b t h).2 = none ∧
      ((ServiceBus.subscribe b t h).1).handlersFor t = b.handlersFor t ++ [h] :=
  fun b t h => ⟨rfl, handlersFor_subscribe b t h⟩

/-- C10: operations do not touch each other's state: publish never changes
the subscription registry (any fuel, any outcome), and subscribe never
changes the log. -/
theorem publish_subscribe_frame :
    (∀ (fuel d : Nat) (b : ServiceBus) (t : Topic) (p : Payload),
        ((ServiceBus.publish fuel d b t p).bus).subscribers = b.subscribers)
    ∧ ∀ (b : ServiceBus) (t : Topic) (h : Handler),
        ((ServiceBus.subscribe b t h).1).getLog = b.getLog :=
  ⟨fun fuel d b t p => run_subscribers fuel (.pub d b t p), fun _ _ _ => rfl⟩

/-- Helper: a handler round only ever extends the log it starts from. -/
theorem round_log_extends (k dd : Nat) (b0 : ServiceBus) (p : Payload)
    (hs : List Handler) (base : List Entry) (e1 e2 : Entry)
    (h : b0.log = base ++ [e1, e2]) :
    ∃ tail, (run k (.round dd b0 p hs)).bus.log = base ++ e1 :: e2 :: tail := by
  refine ⟨appendsOf (run k (.round dd b0 p hs)).tr, ?_⟩
  rw [run_log k (.round dd b0 p hs)]
  simp [Job.bus, h]

/-- C1: (first part) a successful publish first appends its entry and then
runs the topic's handlers strictly sequentially in registration order, each
invoked with the publish's payload, each one's full cascade (which contains
no same-depth sibling invocation) settling before the next handler is
invoked.  (second part) In particular, when topic `tA`'s first handler
publishes to `tB` and `tB`'s handlers publish nothing further, publishing to
`tA` yields the log order `tA`-entry, then `tB`-entry, immediately adjacent —
a sibling handler of the publisher can only contribute entries after both,
and never between or before them. -/
theorem publish_registration_order_depth_first :
    (∀ (fuel d : Nat) (b : ServiceBus) (t : Topic) (p : Payload),
        (ServiceBus.publish (fuel + 1) d b t p).out = .ok →
        ∃ rest, (ServiceBus.publish (fuel + 1) d b t p).tr =
            .append ⟨t, p, b.clock⟩ :: rest ∧
          RoundShape d p (b.handlersFor t) rest)
    ∧ ∀ (n : Nat) (b : ServiceBus) (tA tB : Topic) (pA pB : Payload)
        (g1 : Nat) (sibs hsB : List Handler),
        b.handlersFor tA = ⟨g1, fun _ => .pub tB pB .ret⟩ :: sibs →
        b.handlersFor tB = hsB →
        (∀ h ∈ hsB, ∀ q, h.body q = HProg.ret) →
        hsB.length + 5 ≤ n →
        ∃ tail, ((ServiceBus.publish n 0 b tA pA).bus).getLog =
          b.getLog ++ ⟨tA, pA, b.clock⟩ :: ⟨tB, pB, b.clock + 400⟩ :: tail := by
  constructor
  · intro fuel d b t p hok
    exact ⟨(run fuel (.round d (b.withEntry ⟨t, p, b.clock⟩) p (b.handlersFor t))).tr,
      rfl, run_round_shape fuel d _ p (b.handlersFor t) hok⟩
  · intro n b tA tB pA pB g1 sibs hsB hA hB hBret hn
    obtain ⟨m, rfl⟩ : ∃ m, n = m + 1 + 1 + 1 + 1 := ⟨n - 4, by omega⟩
    have hk : hsB.length + 1 ≤ m := by omega
    show ∃ tail, (run (m + 1 + 1 + 1 + 1) (.pub 0 b tA pA)).bus.log =
      b.log ++ ⟨tA, pA, b.clock⟩ :: ⟨tB, pB, b.clock + 400⟩ :: tail
    simp only [run]
    rw [hA]
    simp only [run, handlersFor_withEntry, handlersFor_delay, clock_withEntry,
      clock_delay, hB]
    rw [run_round_rets hsB m (0 + 1) _ pB (fun h hmem => hBret h hmem pB) hk]
    simp only [run]
    exact round_log_extends (m + 1 + 1) 0 _ pA sibs b.log
      ⟨tA, pA, b.clock⟩ ⟨tB, pB, b.clock + 400⟩ (by simp)

/-- C1 (witness): on the concrete cascade bus, the publish to "A" resolves
with the round-shaped trace, and the log starts with the "A" entry
immediately followed by the "B" entry published by "A"'s first handler. -/
theorem publish_registration_order_depth_first_witness :
    (∃ rest, (ServiceBus.publish 9 0 cascadeDemoBus "A" "p").tr =
        .append ⟨"A", "p", 0⟩ :: rest ∧
      RoundShape 0 "p" (cascadeDemoBus.handlersFor "A") rest)
    ∧ ∃ tail, ((ServiceBus.publish 9 0 cascadeDemoBus "A" "p").bus).getLog =
        cascadeDemoBus.getLog ++ ⟨"A", "p", 0⟩ :: ⟨"B", "q", 400⟩ :: tail :=
  ⟨publish_registration_order_depth_first.1 8 0 cascadeDemoBus "A" "p" (by decide),
    publish_registration_order_depth_first.2 9 cascadeDemoBus "A" "B" "p" "q" 1
      [⟨2, fun _ => .ret⟩] [⟨3, fun _ => .ret⟩] rfl rfl
      (by intro h hm q; simp at hm; subst hm; rfl) (by decide)⟩

/-- C4: if the first of a topic's two handlers fails (its run — including any
nested cascade — rejects with `e`), the publish rejects with that same `e`,
its whole trace is the append, the first handler's invocation, its cascade
and its failure, and the second handler is never invoked in that dispatch
round (no depth-`d` invocation of it occurs anywhere in the trace). -/
theorem publish_failure_short_circuit (fuel d : Nat) (b : ServiceBus) (t : Topic)
    (p : Payload) (g1 g2 : Handler) (b2 : ServiceBus) (tr1 : List Ev) (e : String)
    (hsubs : b.handlersFor t = [g1, g2])
    (htag : g1.tag ≠ g2.tag)
    (hfail : run fuel (.prog (d + 1) ((b.withEntry ⟨t, p, b.clock⟩).delay 400) (g1.body p)) =
      ⟨b2, tr1, .fail e⟩) :
    ServiceBus.publish (fuel + 1 + 1) d b t p =
      ⟨b2, .append ⟨t, p, b.clock⟩ :: .invoke d g1.tag p ::
        (tr1 ++ [.failed d g1.tag e]), .fail e⟩
    ∧ ∀ q, Ev.invoke d g2.tag q ∉ (ServiceBus.publish (fuel + 1 + 1) d b t p).tr := by
  have hmain : ServiceBus.publish (fuel + 1 + 1) d b t p =
      ⟨b2, .append ⟨t, p, b.clock⟩ :: .invoke d g1.tag p ::
        (tr1 ++ [.failed d g1.tag e]), .fail e⟩ := by
    show run (fuel + 1 + 1) (.pub d b t p) = _
    simp only [run]
    rw [hsubs]
    simp only [run, hfail]
  refine ⟨hmain, fun q hq => ?_⟩
  rw [hmain] at hq
  simp only [List.mem_cons, List.mem_append, List.mem_singleton] at hq
  rcases hq with hq | hq | hq | hq
  · exact absurd hq (by simp)
  · simp only [Ev.invoke.injEq] at hq
    exact htag (hq.2.1.symm)
  · have htr : (run fuel (.prog (d + 1)
        ((b.withEntry ⟨t, p, b.clock⟩).delay 400) (g1.body p))).tr = tr1 := by
      rw [hfail]
    rw [← htr] at hq
    have hdd : d + 1 ≤ d := run_depth fuel _ d g2.tag q hq
    omega
  · exact absurd hq (by simp)

/-- C4 (witness): on the concrete bus whose first handler for "t" rejects
with "boom", the publish rejects with "boom" after the append and the first
handler's invocation and failure — and the second handler (tag 2) is never
invoked. -/
theorem publish_failure_short_circuit_witness :
    ServiceBus.publish 5 0 failDemoBus "t" "p" =
      ⟨(failDemoBus.withEntry ⟨"t", "p", 0⟩).delay 400,
        [.append ⟨"t", "p", 0⟩, .invoke 0 1 "p", .failed 0 1 "boom"], .fail "boom"⟩
    ∧ ∀ q, Ev.invoke 0 2 q ∉ (ServiceBus.publish 5 0 failDemoBus "t" "p").tr :=
  publish_failure_short_circuit 3 0 failDemoBus "t" "p"
    ⟨1, fun _ => .err "boom"⟩ ⟨2, fun _ => .ret⟩
    ((failDemoBus.withEntry ⟨"t", "p", 0⟩).delay 400) [] "boom"
    rfl (by decide) rfl

/-- C9: `subscribe` appends the handler at the end of the topic's ordered
list, creating the list when the topic was previously unknown (afterwards the
registry maps the topic to the old list — empty if absent — plus the new
handler at the end); and a successful dispatch round invokes its handlers
exactly once per registration, in registration order, with the published
payload — so a handler registered `k` times is invoked exactly `k` times in
that round. -/
theorem subscribe_appends_and_round_invokes :
    (∀ (b : ServiceBus) (t : Topic) (h : Handler),
        lookupTopic ((ServiceBus.subscribe b t h).1).subscribers t =
          some (b.handlersFor t ++ [h]))
    ∧ ∀ (fuel d : Nat) (b : ServiceBus) (t : Topic) (p : Payload),
        (ServiceBus.publish fuel d b t p).out = .ok →
        invokesAt d (ServiceBus.publish fuel d b t p).tr =
          (b.handlersFor t).map fun h => Ev.invoke d h.tag p := by
  refine ⟨lookupTopic_subscribe, fun fuel d b t p hok => ?_⟩
  cases fuel with
  | zero => exact absurd hok (by simp [ServiceBus.publish, run])
  | succ n =>
      have h := run_round_invokes n d (b.withEntry ⟨t, p, b.clock⟩) p
        (b.handlersFor t) hok
      show invokesAt d (run (n + 1) (.pub d b t p)).tr = _
      simp only [run]
      simpa using h

/-- C9 (witness): with the same handler (tag 7) registered twice for "t", a
publish to "t" invokes it exactly twice, in order, with the payload. -/
theorem subscribe_appends_and_round_invokes_witness :
    invokesAt 0 (ServiceBus.publish 9 0 dupDemoBus "t" "p").tr =
      [.invoke 0 7 "p", .invoke 0 7 "p"] := by
  have h := subscribe_appends_and_round_invokes.2 9 0 dupDemoBus "t" "p" (by decide)
  rw [h]
  rfl
